import Mathlib

/-!
# Verification of the proc-mem-to-prom aggregation-and-publication cycle

Shallow embedding of `src/main.rs` of WIPACrepo/proc-mem-to-prom: a
per-user process/memory/swap aggregator (`procs`) that publishes three
Prometheus gauge families and reconciles their label sets against the
previous cycle, plus the scheduler (`run_forever`) and startup
configuration resolution (`main`).

External collaborators (procfs, the users crate, the prometheus registry
primitives) are embedded at the granularity the core uses them:
* a process `Status` carries `euid` and optional `vmrss`/`vmswap` (kB);
* the identity resolver is a function `Nat → Option String`
  (`users::UsersCache::get_user_by_uid` composed with `.name()`);
* each `IntGaugeVec` family is a finite map from full label tuples
  `(job, hostgroup, instance, username)` to `Int` values, with
  `with_label_values(..).set(..)` as insert, `remove_label_values` as
  erase (an absent label set erases to a no-op, as the code ignores the
  returned `Err`), and `collect()` label enumeration as the key set.
-/

/-- One `procfs::process::Status` record, restricted to the fields
`procs` reads: the effective uid, and the optional `VmRSS` / `VmSwap`
values (in kB; `None` when the kernel does not report the field), as
read by `src/main.rs` lines 85-100. -/
structure Status where
  euid : Nat
  vmrss : Option Nat
  vmswap : Option Nat
deriving DecidableEq

/-- The per-user accumulator `ProcEntry { count, rss, swap }` of
`src/main.rs` lines 69-73 (all fields are Rust `i64`). -/
structure ProcEntry where
  count : Int
  rss : Int
  swap : Int
deriving DecidableEq

/-- The `user_procs: HashMap<String, ProcEntry>` of `procs`, embedded as
an association list with distinct keys (HashMap iteration order is
arbitrary; all claims proved below are order-independent). -/
abbrev UserProcs := List (String × ProcEntry)

/-- Owner-name resolution of `src/main.rs` lines 86-90:
`usernames.get_user_by_uid(process.euid)` gives the name on success, and
the fixed sentinel `"unknown"` on failure. -/
def resolveUsername (resolve : Nat → Option String) (euid : Nat) : String :=
  match resolve euid with
  | some x => x
  | none => "unknown"

/-- The memory contribution of one record, `src/main.rs` lines 93-96:
`match process.vmrss { Some(x) => x as i64, None => 0 } * 1000`
(the `* 1000` multiplies the whole match, so an absent field
contributes `0 * 1000 = 0`). -/
def rssContribution (p : Status) : Int :=
  (match p.vmrss with
   | some x => (x : Int)
   | none => 0) * 1000

/-- The swap contribution of one record, `src/main.rs` lines 97-100. -/
def swapContribution (p : Status) : Int :=
  (match p.vmswap with
   | some x => (x : Int)
   | none => 0) * 1000

/-- `user_procs.entry(username).or_insert(ProcEntry{0,0,0})` followed by
`count += 1; rss += drss; swap += dswap` (`src/main.rs` lines 91-100):
update the entry for `username` in place, creating it from the zero
entry when absent. -/
def addProc (username : String) (drss dswap : Int) : UserProcs → UserProcs
  | [] => [(username, { count := 1, rss := drss, swap := dswap })]
  | (k, e) :: rest =>
    if k = username then
      (k, { count := e.count + 1, rss := e.rss + drss, swap := e.swap + dswap }) :: rest
    else
      (k, e) :: addProc username drss dswap rest

/-- One iteration of the aggregation loop body of `procs`
(`src/main.rs` lines 85-101): accumulate one record into its resolved
owner's entry. -/
def aggStep (resolve : Nat → Option String) (acc : UserProcs) (p : Status) : UserProcs :=
  addProc (resolveUsername resolve p.euid) (rssContribution p) (swapContribution p) acc

/-- The aggregation loop of `procs` (`src/main.rs` lines 85-101): one
pass over the snapshot. -/
def aggregateProcs (resolve : Nat → Option String) (processes : List Status) : UserProcs :=
  processes.foldl (aggStep resolve) []

/-- Association-list lookup on `UserProcs` (HashMap key lookup). -/
def lookupUP : UserProcs → String → Option ProcEntry
  | [], _ => none
  | (k, e) :: rest, u => if k = u then some e else lookupUP rest u

/-- The sum of `count` over all entries. -/
def sumCount (l : UserProcs) : Int :=
  (l.map (fun ue => ue.2.count)).sum

theorem lookupUP_addProc_self (u : String) (a b : Int) (l : UserProcs) :
    lookupUP (addProc u a b l) u =
      some { count := ((lookupUP l u).getD ⟨0, 0, 0⟩).count + 1,
             rss := ((lookupUP l u).getD ⟨0, 0, 0⟩).rss + a,
             swap := ((lookupUP l u).getD ⟨0, 0, 0⟩).swap + b } := by
  induction l with
  | nil => simp [addProc, lookupUP]
  | cons h t ih =>
    obtain ⟨k, e⟩ := h
    by_cases hk : k = u
    · subst hk
      simp [addProc, lookupUP]
    · simp [addProc, lookupUP, hk, ih]

theorem lookupUP_addProc_ne (u v : String) (a b : Int) (l : UserProcs) (h : v ≠ u) :
    lookupUP (addProc u a b l) v = lookupUP l v := by
  induction l with
  | nil => simp [addProc, lookupUP, Ne.symm h]
  | cons hd t ih =>
    obtain ⟨k, e⟩ := hd
    by_cases hk : k = u
    · subst hk
      simp [addProc, lookupUP, Ne.symm h, ih]
    · simp [addProc, lookupUP, hk, ih]

theorem sumCount_addProc (u : String) (a b : Int) (l : UserProcs) :
    sumCount (addProc u a b l) = sumCount l + 1 := by
  induction l with
  | nil => simp [addProc, sumCount]
  | cons hd t ih =>
    obtain ⟨k, e⟩ := hd
    by_cases hk : k = u
    · subst hk
      simp [addProc, sumCount] at ih ⊢
      ring
    · simp [addProc, sumCount, hk] at ih ⊢
      omega

theorem keys_addProc_mem (u : String) (a b : Int) (l : UserProcs) (h : u ∈ l.map Prod.fst) :
    (addProc u a b l).map Prod.fst = l.map Prod.fst := by
  induction l with
  | nil => simp at h
  | cons hd t ih =>
    obtain ⟨k, e⟩ := hd
    rw [List.map_cons, List.mem_cons] at h
    by_cases hk : k = u
    · subst hk
      simp [addProc]
    · have ht : u ∈ t.map Prod.fst := h.resolve_left fun he => hk he.symm
      simp [addProc, hk, ih ht]

theorem keys_addProc_not_mem (u : String) (a b : Int) (l : UserProcs)
    (h : u ∉ l.map Prod.fst) :
    (addProc u a b l).map Prod.fst = l.map Prod.fst ++ [u] := by
  induction l with
  | nil => simp [addProc]
  | cons hd t ih =>
    obtain ⟨k, e⟩ := hd
    rw [List.map_cons, List.mem_cons] at h
    push_neg at h
    have hk : ¬k = u := fun he => h.1 he.symm
    simp [addProc, hk, ih h.2]

theorem nodup_addProc (u : String) (a b : Int) (l : UserProcs)
    (h : (l.map Prod.fst).Nodup) : ((addProc u a b l).map Prod.fst).Nodup := by
  by_cases hm : u ∈ l.map Prod.fst
  · rw [keys_addProc_mem u a b l hm]
    exact h
  · rw [keys_addProc_not_mem u a b l hm]
    simp [List.nodup_append, h, hm]

/-- The aggregate entry an owner accumulates from the records `fs`
attributed to it, on top of a base entry: one count per record, the
scaled memory/swap contributions summed. -/
def snapshotEntry (base : ProcEntry) (fs : List Status) : ProcEntry :=
  { count := base.count + fs.length,
    rss := base.rss + (fs.map rssContribution).sum,
    swap := base.swap + (fs.map swapContribution).sum }

theorem lookupUP_foldl_aggStep (resolve : Nat → Option String) (ps : List Status)
    (acc : UserProcs) (u : String) :
    lookupUP (ps.foldl (aggStep resolve) acc) u =
      if (ps.filter fun p => resolveUsername resolve p.euid = u) = [] then
        lookupUP acc u
      else
        some (snapshotEntry ((lookupUP acc u).getD ⟨0, 0, 0⟩)
          (ps.filter fun p => resolveUsername resolve p.euid = u)) := by
  induction ps generalizing acc with
  | nil => simp
  | cons p ps ih =>
    rw [List.foldl_cons, ih]
    by_cases hw : resolveUsername resolve p.euid = u
    · rw [List.filter_cons_of_pos (by simpa using hw)]
      have hlk := lookupUP_addProc_self u (rssContribution p) (swapContribution p) acc
      have hstep : lookupUP (aggStep resolve acc p) u =
          some { count := ((lookupUP acc u).getD ⟨0, 0, 0⟩).count + 1,
                 rss := ((lookupUP acc u).getD ⟨0, 0, 0⟩).rss + rssContribution p,
                 swap := ((lookupUP acc u).getD ⟨0, 0, 0⟩).swap + swapContribution p} := by
        rw [aggStep, hw]
        exact hlk
      by_cases hf : (ps.filter fun p => resolveUsername resolve p.euid = u) = []
      · simp [hf, hstep, snapshotEntry]
      · simp only [hf, if_false, hstep, Option.getD_some, snapshotEntry, List.length_cons,
          List.map_cons, List.sum_cons, if_neg (List.cons_ne_nil p _)]
        refine congrArg some ?_
        simp only [ProcEntry.mk.injEq]
        refine ⟨?_, ?_, ?_⟩ <;> push_cast <;> ring
    · rw [List.filter_cons_of_neg (by simpa using hw)]
      have hstep : lookupUP (aggStep resolve acc p) u = lookupUP acc u := by
        rw [aggStep]
        exact lookupUP_addProc_ne _ u _ _ acc (fun he => hw he.symm)
      rw [hstep]

/-- Per-owner characterization of the aggregation pass: an owner's entry
exists iff some record resolves to it, and then its fields are the
record count and summed scaled contributions of exactly those records. -/
theorem lookupUP_aggregateProcs (resolve : Nat → Option String) (ps : List Status)
    (u : String) :
    lookupUP (aggregateProcs resolve ps) u =
      if (ps.filter fun p => resolveUsername resolve p.euid = u) = [] then none
      else
        some (snapshotEntry ⟨0, 0, 0⟩
          (ps.filter fun p => resolveUsername resolve p.euid = u)) := by
  have h := lookupUP_foldl_aggStep resolve ps [] u
  simpa [aggregateProcs, lookupUP] using h

theorem sumCount_foldl_aggStep (resolve : Nat → Option String) (ps : List Status)
    (acc : UserProcs) :
    sumCount (ps.foldl (aggStep resolve) acc) = sumCount acc + ps.length := by
  induction ps generalizing acc with
  | nil => simp
  | cons p ps ih =>
    rw [List.foldl_cons, ih, aggStep, sumCount_addProc, List.length_cons]
    push_cast
    ring

theorem nodup_keys_aggregateProcs (resolve : Nat → Option String) (ps : List Status) :
    ((aggregateProcs resolve ps).map Prod.fst).Nodup := by
  rw [aggregateProcs]
  have h : ∀ acc : UserProcs, (acc.map Prod.fst).Nodup →
      ((ps.foldl (aggStep resolve) acc).map Prod.fst).Nodup := by
    induction ps with
    | nil => intro acc hacc; simpa using hacc
    | cons p ps ih =>
      intro acc hacc
      rw [List.foldl_cons]
      exact ih _ (nodup_addProc _ _ _ _ hacc)
  exact h [] (by simp)

theorem lookupUP_eq_none_iff (l : UserProcs) (u : String) :
    lookupUP l u = none ↔ u ∉ l.map Prod.fst := by
  induction l with
  | nil => simp [lookupUP]
  | cons hd t ih =>
    obtain ⟨k, e⟩ := hd
    by_cases hk : k = u
    · subst hk
      simp [lookupUP]
    · have hu : ¬u = k := fun he => hk he.symm
      simp [lookupUP, hk, ih, hu]

/-- A full Prometheus label tuple `(job, hostgroup, instance, username)`
of the three gauge families declared in `src/main.rs` lines 20-39. -/
abbrev Label := String × String × String × String

/-- The fixed `job` label value hardcoded at every
`with_label_values` / `remove_label_values` call site
(`src/main.rs` lines 117-144). -/
def jobLabel : String := "proc-mem-to-prom"

/-- The label tuple `["proc-mem-to-prom", hostgroup, instance, username]`. -/
def mkLabel (hostgroup inst username : String) : Label :=
  (jobLabel, hostgroup, inst, username)

/-- The owner-name component of a label tuple: `mm.get_label().last()`
of `src/main.rs` line 107 (prometheus sorts label names, and
`username` sorts last among `hostgroup`, `instance`, `job`,
`username`). -/
def usernameOf (l : Label) : String := l.2.2.2

/-- One `IntGaugeVec` family: a finite map from label tuples to gauge
values. `with_label_values(..).set(v)` is `insert`,
`remove_label_values` is `erase` (the code ignores the `Err` returned
for an absent label set, so erase of an absent key is a no-op), and
`collect()` exposes the key set. -/
abbrev GaugeFam := Finmap (fun _ : Label => Int)

/-- The metrics registry state: the three gauge families
`USER_PROCESSES_GAUGE`, `USER_MEMORY_GAUGE`, `USER_SWAP_GAUGE`
(`src/main.rs` lines 20-39). -/
@[ext]
structure Registry where
  userProcessesGauge : GaugeFam
  userMemoryGauge : GaugeFam
  userSwapGauge : GaugeFam

/-- The `prev_usernames` set of `src/main.rs` lines 103-114: the
owner-name component of every label tuple currently published in the
`USER_PROCESSES_GAUGE` family (and only that family). -/
def prevUsernamesOf (r : Registry) : Finset String :=
  r.userProcessesGauge.keys.image usernameOf

/-- One iteration of the publish loop body (`src/main.rs` lines
117-125): set all three gauges for one owner at the fixed label
prefix. -/
def publishOne (hostgroup inst : String) (r : Registry) (username : String)
    (e : ProcEntry) : Registry :=
  { userProcessesGauge := r.userProcessesGauge.insert (mkLabel hostgroup inst username) e.count,
    userMemoryGauge := r.userMemoryGauge.insert (mkLabel hostgroup inst username) e.rss,
    userSwapGauge := r.userSwapGauge.insert (mkLabel hostgroup inst username) e.swap }

/-- One iteration of the eviction loop body (`src/main.rs` lines
128-145): delete all three gauges for one stale owner (each
`remove_label_values` error is ignored, so deleting an absent label
set is a no-op). -/
def evictOne (hostgroup inst : String) (r : Registry) (username : String) : Registry :=
  { userProcessesGauge := r.userProcessesGauge.erase (mkLabel hostgroup inst username),
    userMemoryGauge := r.userMemoryGauge.erase (mkLabel hostgroup inst username),
    userSwapGauge := r.userSwapGauge.erase (mkLabel hostgroup inst username) }

/-- The gauge-setting effect of the publish loop (`src/main.rs` lines
116-126). -/
def publishAll (hostgroup inst : String) (current : UserProcs) (r : Registry) : Registry :=
  current.foldl (fun acc ue => publishOne hostgroup inst acc ue.1 ue.2) r

/-- The `prev_usernames.remove(username)` effect of the publish loop
(`src/main.rs` line 125): what remains afterwards is the stale set. -/
def removePublished (current : UserProcs) (s : Finset String) : Finset String :=
  current.foldl (fun acc ue => acc.erase ue.1) s

/-- The eviction loop (`src/main.rs` lines 128-146) over a list of
stale owner names (`HashSet` iteration order is arbitrary; erases of
distinct labels commute, and we fix the sorted enumeration). -/
def evictAll (hostgroup inst : String) (usernames : List String) (r : Registry) : Registry :=
  usernames.foldl (evictOne hostgroup inst) r

/-- The reconciliation part of `procs` (`src/main.rs` lines 103-146):
snapshot the previously published owner names from the process-count
family, publish every current owner (removing it from the previous
set), then evict what remains. -/
def reconcile (hostgroup inst : String) (current : UserProcs) (r : Registry) : Registry :=
  evictAll hostgroup inst
    ((removePublished current (prevUsernamesOf r)).sort (· ≤ ·))
    (publishAll hostgroup inst current r)

/-- One full cycle of `procs` (`src/main.rs` lines 75-146): a failed
snapshot (`get_all_procs` returning `Err`) prints a message and
returns without touching the registry; otherwise aggregate and
reconcile. -/
def procsCycle (resolve : Nat → Option String) (hostgroup inst : String)
    (snapshot : Option (List Status)) (r : Registry) : Registry :=
  match snapshot with
  | none => r
  | some processes => reconcile hostgroup inst (aggregateProcs resolve processes) r

theorem usernameOf_mkLabel (hostgroup inst u : String) :
    usernameOf (mkLabel hostgroup inst u) = u := rfl

theorem mkLabel_inj (hostgroup inst u v : String) :
    mkLabel hostgroup inst u = mkLabel hostgroup inst v ↔ u = v := by
  simp [mkLabel]

theorem lookupUP_some_mem (l : UserProcs) (u : String) (e : ProcEntry)
    (h : lookupUP l u = some e) : (u, e) ∈ l := by
  induction l with
  | nil => simp [lookupUP] at h
  | cons hd t ih =>
    obtain ⟨k, e0⟩ := hd
    by_cases hk : k = u
    · subst hk
      rw [lookupUP, if_pos rfl, Option.some_inj] at h
      subst h
      exact List.mem_cons_self _ _
    · rw [lookupUP, if_neg hk] at h
      exact List.mem_cons_of_mem _ (ih h)

theorem mem_removePublished (cur : UserProcs) (s : Finset String) (v : String) :
    v ∈ removePublished cur s ↔ v ∈ s ∧ v ∉ cur.map Prod.fst := by
  induction cur generalizing s with
  | nil => simp [removePublished]
  | cons ue t ih =>
    rw [removePublished, List.foldl_cons]
    have h := ih (s.erase ue.1)
    rw [removePublished] at h
    rw [h, Finset.mem_erase]
    simp only [List.map_cons, List.mem_cons]
    constructor
    · rintro ⟨⟨hne, hs⟩, hnt⟩
      exact ⟨hs, by simp [hne, hnt]⟩
    · rintro ⟨hs, hn⟩
      push_neg at hn
      exact ⟨⟨hn.1, hs⟩, hn.2⟩

theorem lookup_publishAll_of_ne (hostgroup inst : String) (cur : UserProcs)
    (r : Registry) (l : Label) (h : ∀ ue ∈ cur, mkLabel hostgroup inst ue.1 ≠ l) :
    (publishAll hostgroup inst cur r).userProcessesGauge.lookup l
        = r.userProcessesGauge.lookup l ∧
    (publishAll hostgroup inst cur r).userMemoryGauge.lookup l
        = r.userMemoryGauge.lookup l ∧
    (publishAll hostgroup inst cur r).userSwapGauge.lookup l
        = r.userSwapGauge.lookup l := by
  induction cur generalizing r with
  | nil => exact ⟨rfl, rfl, rfl⟩
  | cons ue t ih =>
    rw [publishAll, List.foldl_cons]
    have hne : l ≠ mkLabel hostgroup inst ue.1 :=
      fun he => h ue (List.mem_cons_self _ _) he.symm
    have ht := ih (publishOne hostgroup inst r ue.1 ue.2)
      (fun v hv => h v (List.mem_cons_of_mem _ hv))
    rw [publishAll] at ht
    refine ⟨?_, ?_, ?_⟩
    · rw [ht.1, publishOne]
      exact Finmap.lookup_insert_of_ne _ hne
    · rw [ht.2.1, publishOne]
      exact Finmap.lookup_insert_of_ne _ hne
    · rw [ht.2.2, publishOne]
      exact Finmap.lookup_insert_of_ne _ hne

theorem lookup_publishAll_mem (hostgroup inst : String) (cur : UserProcs)
    (r : Registry) (u : String) (e : ProcEntry)
    (hnd : (cur.map Prod.fst).Nodup) (h : (u, e) ∈ cur) :
    (publishAll hostgroup inst cur r).userProcessesGauge.lookup (mkLabel hostgroup inst u)
        = some e.count ∧
    (publishAll hostgroup inst cur r).userMemoryGauge.lookup (mkLabel hostgroup inst u)
        = some e.rss ∧
    (publishAll hostgroup inst cur r).userSwapGauge.lookup (mkLabel hostgroup inst u)
        = some e.swap := by
  induction cur generalizing r with
  | nil => simp at h
  | cons ue t ih =>
    rw [publishAll, List.foldl_cons]
    rw [List.map_cons, List.nodup_cons] at hnd
    rcases List.mem_cons.mp h with hhd | htl
    · have hu : ue.1 = u := by rw [← hhd]
      have hrest : ∀ v ∈ t, mkLabel hostgroup inst v.1 ≠ mkLabel hostgroup inst u := by
        intro v hv hev
        have hvu : v.1 = u := (mkLabel_inj hostgroup inst v.1 u).mp hev
        have hv1 : v.1 ∈ List.map Prod.fst t := List.mem_map_of_mem Prod.fst hv
        rw [hvu, ← hu] at hv1
        exact hnd.1 hv1
      have hfix := lookup_publishAll_of_ne hostgroup inst t
        (publishOne hostgroup inst r ue.1 ue.2) (mkLabel hostgroup inst u) hrest
      rw [publishAll] at hfix
      have he : ue.2 = e := by rw [← hhd]
      refine ⟨?_, ?_, ?_⟩
      · rw [hfix.1, publishOne, hu, he]
        exact Finmap.lookup_insert _
      · rw [hfix.2.1, publishOne, hu, he]
        exact Finmap.lookup_insert _
      · rw [hfix.2.2, publishOne, hu, he]
        exact Finmap.lookup_insert _
    · have := ih (publishOne hostgroup inst r ue.1 ue.2) hnd.2 htl
      rw [publishAll] at this
      exact this

theorem lookup_evictAll_of_ne (hostgroup inst : String) (us : List String)
    (r : Registry) (l : Label) (h : ∀ u ∈ us, mkLabel hostgroup inst u ≠ l) :
    (evictAll hostgroup inst us r).userProcessesGauge.lookup l
        = r.userProcessesGauge.lookup l ∧
    (evictAll hostgroup inst us r).userMemoryGauge.lookup l
        = r.userMemoryGauge.lookup l ∧
    (evictAll hostgroup inst us r).userSwapGauge.lookup l
        = r.userSwapGauge.lookup l := by
  induction us generalizing r with
  | nil => exact ⟨rfl, rfl, rfl⟩
  | cons v t ih =>
    rw [evictAll, List.foldl_cons]
    have hne : l ≠ mkLabel hostgroup inst v :=
      fun he => h v (List.mem_cons_self _ _) he.symm
    have ht := ih (evictOne hostgroup inst r v)
      (fun w hw => h w (List.mem_cons_of_mem _ hw))
    rw [evictAll] at ht
    refine ⟨?_, ?_, ?_⟩
    · rw [ht.1, evictOne]
      exact Finmap.lookup_erase_ne hne
    · rw [ht.2.1, evictOne]
      exact Finmap.lookup_erase_ne hne
    · rw [ht.2.2, evictOne]
      exact Finmap.lookup_erase_ne hne

theorem lookup_evictAll_mem (hostgroup inst : String) (us : List String)
    (r : Registry) (u : String) (h : u ∈ us) :
    (evictAll hostgroup inst us r).userProcessesGauge.lookup (mkLabel hostgroup inst u)
        = none ∧
    (evictAll hostgroup inst us r).userMemoryGauge.lookup (mkLabel hostgroup inst u)
        = none ∧
    (evictAll hostgroup inst us r).userSwapGauge.lookup (mkLabel hostgroup inst u)
        = none := by
  induction us generalizing r with
  | nil => simp at h
  | cons v t ih =>
    rw [evictAll, List.foldl_cons]
    by_cases htl : u ∈ t
    · have := ih (evictOne hostgroup inst r v) htl
      rw [evictAll] at this
      exact this
    · have hv : v = u := by
        rcases List.mem_cons.mp h with hh | ht
        · exact hh.symm
        · exact absurd ht htl
      subst hv
      have hrest : ∀ w ∈ t, mkLabel hostgroup inst w ≠ mkLabel hostgroup inst v := by
        intro w hw hev
        exact htl ((mkLabel_inj hostgroup inst w v).mp hev ▸ hw)
      have hfix := lookup_evictAll_of_ne hostgroup inst t
        (evictOne hostgroup inst r v) (mkLabel hostgroup inst v) hrest
      rw [evictAll] at hfix
      refine ⟨?_, ?_, ?_⟩
      · rw [hfix.1, evictOne]
        exact Finmap.lookup_erase _ _
      · rw [hfix.2.1, evictOne]
        exact Finmap.lookup_erase _ _
      · rw [hfix.2.2, evictOne]
        exact Finmap.lookup_erase _ _

/-- Pointwise characterization of one reconciliation pass, per family.
A label with the fixed prefix ends up tracking exactly the current
aggregate (present owners get their values, absent owners are gone
from the count family); for the memory/swap families an absent owner's
label survives only when its owner name was never published in the
count family; labels with any other prefix are untouched. -/
theorem lookup_reconcile (hostgroup inst : String) (cur : UserProcs) (r : Registry)
    (hnd : (cur.map Prod.fst).Nodup) (l : Label) :
    (reconcile hostgroup inst cur r).userProcessesGauge.lookup l =
      (if l = mkLabel hostgroup inst (usernameOf l) then
        (lookupUP cur (usernameOf l)).map (fun e => e.count)
      else r.userProcessesGauge.lookup l) ∧
    (reconcile hostgroup inst cur r).userMemoryGauge.lookup l =
      (if l = mkLabel hostgroup inst (usernameOf l) then
        match lookupUP cur (usernameOf l) with
        | some e => some e.rss
        | none =>
          if usernameOf l ∈ prevUsernamesOf r then none
          else r.userMemoryGauge.lookup l
      else r.userMemoryGauge.lookup l) ∧
    (reconcile hostgroup inst cur r).userSwapGauge.lookup l =
      (if l = mkLabel hostgroup inst (usernameOf l) then
        match lookupUP cur (usernameOf l) with
        | some e => some e.swap
        | none =>
          if usernameOf l ∈ prevUsernamesOf r then none
          else r.userSwapGauge.lookup l
      else r.userSwapGauge.lookup l) := by
  rw [reconcile]
  by_cases hpre : l = mkLabel hostgroup inst (usernameOf l)
  · cases hc : lookupUP cur (usernameOf l) with
    | some e =>
      have hmem : (usernameOf l, e) ∈ cur := lookupUP_some_mem _ _ _ hc
      have hkeys : usernameOf l ∈ cur.map Prod.fst :=
        List.mem_map_of_mem Prod.fst hmem
      have hnotstale : ∀ v ∈ (removePublished cur (prevUsernamesOf r)).sort (· ≤ ·),
          mkLabel hostgroup inst v ≠ l := by
        intro v hv hev
        rw [Finset.mem_sort] at hv
        have hrp := (mem_removePublished _ _ _).mp hv
        have hveq : v = usernameOf l :=
          (mkLabel_inj hostgroup inst v (usernameOf l)).mp (hev.trans hpre)
        exact hrp.2 (hveq ▸ hkeys)
      have hev := lookup_evictAll_of_ne hostgroup inst _
        (publishAll hostgroup inst cur r) l hnotstale
      have hpub := lookup_publishAll_mem hostgroup inst cur r (usernameOf l) e hnd hmem
      rw [evictAll] at hev
      rw [publishAll, ← hpre] at hpub
      refine ⟨?_, ?_, ?_⟩
      · rw [evictAll, hev.1, publishAll, hpub.1, if_pos hpre]
        rfl
      · rw [evictAll, hev.2.1, publishAll, hpub.2.1, if_pos hpre]
      · rw [evictAll, hev.2.2, publishAll, hpub.2.2, if_pos hpre]
    | none =>
      have hnk : usernameOf l ∉ cur.map Prod.fst := (lookupUP_eq_none_iff _ _).mp hc
      by_cases hprev : usernameOf l ∈ prevUsernamesOf r
      · have hstale : usernameOf l ∈ removePublished cur (prevUsernamesOf r) :=
          (mem_removePublished _ _ _).mpr ⟨hprev, hnk⟩
        have hsl : usernameOf l ∈ (removePublished cur (prevUsernamesOf r)).sort (· ≤ ·) :=
          (Finset.mem_sort _).mpr hstale
        have hev := lookup_evictAll_mem hostgroup inst _
          (publishAll hostgroup inst cur r) (usernameOf l) hsl
        rw [evictAll, ← hpre] at hev
        refine ⟨?_, ?_, ?_⟩
        · rw [evictAll, hev.1, if_pos hpre]
          rfl
        · rw [evictAll, hev.2.1, if_pos hpre]
          simp [hprev]
        · rw [evictAll, hev.2.2, if_pos hpre]
          simp [hprev]
      · have hnotstale : ∀ v ∈ (removePublished cur (prevUsernamesOf r)).sort (· ≤ ·),
            mkLabel hostgroup inst v ≠ l := by
          intro v hv hev
          rw [Finset.mem_sort] at hv
          have hrp := (mem_removePublished _ _ _).mp hv
          have hveq : v = usernameOf l :=
            (mkLabel_inj hostgroup inst v (usernameOf l)).mp (hev.trans hpre)
          exact hprev (hveq ▸ hrp.1)
        have hev := lookup_evictAll_of_ne hostgroup inst _
          (publishAll hostgroup inst cur r) l hnotstale
        have hpub := lookup_publishAll_of_ne hostgroup inst cur r l
          (fun ue hue hev2 => hnk
            ((mkLabel_inj hostgroup inst ue.1 (usernameOf l)).mp (hev2.trans hpre) ▸
              List.mem_map_of_mem Prod.fst hue))
        rw [evictAll] at hev
        rw [publishAll] at hpub
        have hnone : r.userProcessesGauge.lookup l = none := by
          rw [Finmap.lookup_eq_none]
          intro hl
          exact hprev (Finset.mem_image_of_mem usernameOf (Finmap.mem_keys.mpr hl))
        refine ⟨?_, ?_, ?_⟩
        · rw [evictAll, hev.1, publishAll, hpub.1, if_pos hpre, hnone]
          rfl
        · rw [evictAll, hev.2.1, publishAll, hpub.2.1, if_pos hpre]
          simp [hprev]
        · rw [evictAll, hev.2.2, publishAll, hpub.2.2, if_pos hpre]
          simp [hprev]
  · have hnotpub : ∀ ue ∈ cur, mkLabel hostgroup inst ue.1 ≠ l := by
      intro ue hue hev
      exact hpre (by rw [← hev, usernameOf_mkLabel])
    have hnotev : ∀ v ∈ (removePublished cur (prevUsernamesOf r)).sort (· ≤ ·),
        mkLabel hostgroup inst v ≠ l := by
      intro v hv hev
      exact hpre (by rw [← hev, usernameOf_mkLabel])
    have hev := lookup_evictAll_of_ne hostgroup inst _
      (publishAll hostgroup inst cur r) l hnotev
    have hpub := lookup_publishAll_of_ne hostgroup inst cur r l hnotpub
    rw [evictAll] at hev
    rw [publishAll] at hpub
    refine ⟨?_, ?_, ?_⟩
    · rw [evictAll, hev.1, publishAll, hpub.1, if_neg hpre]
    · rw [evictAll, hev.2.1, publishAll, hpub.2.1, if_neg hpre]
    · rw [evictAll, hev.2.2, publishAll, hpub.2.2, if_neg hpre]

theorem mem_keys_iff_lookup (g : GaugeFam) (x : Label) :
    x ∈ g.keys ↔ ¬g.lookup x = none := by
  rw [Finmap.mem_keys]
  constructor
  · intro hx hn
    exact (Finmap.lookup_eq_none.mp hn) hx
  · intro hn
    by_contra hx
    exact hn (Finmap.lookup_eq_none.mpr hx)

theorem mem_keys_reconcile_procs (hostgroup inst : String) (cur : UserProcs)
    (r : Registry) (hnd : (cur.map Prod.fst).Nodup) (l : Label) :
    l ∈ (reconcile hostgroup inst cur r).userProcessesGauge.keys ↔
      (l = mkLabel hostgroup inst (usernameOf l) ∧ usernameOf l ∈ cur.map Prod.fst) ∨
      (¬l = mkLabel hostgroup inst (usernameOf l) ∧ l ∈ r.userProcessesGauge.keys) := by
  have h := (lookup_reconcile hostgroup inst cur r hnd l).1
  rw [mem_keys_iff_lookup, h]
  by_cases hpre : l = mkLabel hostgroup inst (usernameOf l)
  · rw [if_pos hpre]
    cases hc : lookupUP cur (usernameOf l) with
    | some e =>
      have hk : usernameOf l ∈ cur.map Prod.fst :=
        List.mem_map_of_mem Prod.fst (lookupUP_some_mem _ _ _ hc)
      constructor
      · intro _
        exact Or.inl ⟨hpre, hk⟩
      · intro _
        simp
    | none =>
      have hk := (lookupUP_eq_none_iff _ _).mp hc
      constructor
      · intro hcon
        exact absurd rfl hcon
      · rintro (⟨_, hmem⟩ | ⟨hnp, _⟩)
        · exact absurd hmem hk
        · exact absurd hpre hnp
  · rw [if_neg hpre, ← mem_keys_iff_lookup]
    constructor
    · intro hx
      exact Or.inr ⟨hpre, hx⟩
    · rintro (⟨hp, _⟩ | ⟨_, hx⟩)
      · exact absurd hp hpre
      · exact hx

/-- C7: Reconciliation is idempotent: for every aggregate `current`
(any map with distinct owner keys, as the aggregator produces) and
every starting registry state, running the reconcile step twice with
the same `current` leaves the registry exactly as running it once. -/
theorem reconcile_idempotent (hostgroup inst : String) (cur : UserProcs) (r : Registry)
    (hnd : (cur.map Prod.fst).Nodup) :
    reconcile hostgroup inst cur (reconcile hostgroup inst cur r) =
      reconcile hostgroup inst cur r := by
  apply Registry.ext
  · apply Finmap.ext_lookup
    intro l
    rw [(lookup_reconcile hostgroup inst cur (reconcile hostgroup inst cur r) hnd l).1]
    by_cases hpre : l = mkLabel hostgroup inst (usernameOf l)
    · rw [if_pos hpre, (lookup_reconcile hostgroup inst cur r hnd l).1, if_pos hpre]
    · rw [if_neg hpre]
  · apply Finmap.ext_lookup
    intro l
    rw [(lookup_reconcile hostgroup inst cur (reconcile hostgroup inst cur r) hnd l).2.1]
    by_cases hpre : l = mkLabel hostgroup inst (usernameOf l)
    · rw [if_pos hpre]
      cases hc : lookupUP cur (usernameOf l) with
      | some e =>
        rw [(lookup_reconcile hostgroup inst cur r hnd l).2.1, if_pos hpre, hc]
      | none =>
        by_cases hp2 : usernameOf l ∈ prevUsernamesOf (reconcile hostgroup inst cur r)
        · rw [if_pos hp2]
          rw [prevUsernamesOf] at hp2
          obtain ⟨l2, hl2, hul2⟩ := Finset.mem_image.mp hp2
          rcases (mem_keys_reconcile_procs hostgroup inst cur r hnd l2).mp hl2 with
            ⟨_, hmem⟩ | ⟨_, hr⟩
          · exact absurd (hul2 ▸ hmem) ((lookupUP_eq_none_iff _ _).mp hc)
          · have hprev : usernameOf l ∈ prevUsernamesOf r := by
              rw [← hul2]
              exact Finset.mem_image_of_mem usernameOf (Finmap.mem_keys.mpr hr)
            rw [(lookup_reconcile hostgroup inst cur r hnd l).2.1, if_pos hpre, hc,
              if_pos hprev]
        · rw [if_neg hp2]
    · rw [if_neg hpre]
  · apply Finmap.ext_lookup
    intro l
    rw [(lookup_reconcile hostgroup inst cur (reconcile hostgroup inst cur r) hnd l).2.2]
    by_cases hpre : l = mkLabel hostgroup inst (usernameOf l)
    · rw [if_pos hpre]
      cases hc : lookupUP cur (usernameOf l) with
      | some e =>
        rw [(lookup_reconcile hostgroup inst cur r hnd l).2.2, if_pos hpre, hc]
      | none =>
        by_cases hp2 : usernameOf l ∈ prevUsernamesOf (reconcile hostgroup inst cur r)
        · rw [if_pos hp2]
          rw [prevUsernamesOf] at hp2
          obtain ⟨l2, hl2, hul2⟩ := Finset.mem_image.mp hp2
          rcases (mem_keys_reconcile_procs hostgroup inst cur r hnd l2).mp hl2 with
            ⟨_, hmem⟩ | ⟨_, hr⟩
          · exact absurd (hul2 ▸ hmem) ((lookupUP_eq_none_iff _ _).mp hc)
          · have hprev : usernameOf l ∈ prevUsernamesOf r := by
              rw [← hul2]
              exact Finset.mem_image_of_mem usernameOf (Finmap.mem_keys.mpr hr)
            rw [(lookup_reconcile hostgroup inst cur r hnd l).2.2, if_pos hpre, hc,
              if_pos hprev]
        · rw [if_neg hp2]
    · rw [if_neg hpre]

/-- Witness for `reconcile_idempotent` at a concrete aggregate and the
empty registry. -/
theorem reconcile_idempotent_witness :
    reconcile "hg" "inst" [("A", ⟨1, 2, 3⟩)]
        (reconcile "hg" "inst" [("A", ⟨1, 2, 3⟩)] ⟨∅, ∅, ∅⟩) =
      reconcile "hg" "inst" [("A", ⟨1, 2, 3⟩)] ⟨∅, ∅, ∅⟩ :=
  reconcile_idempotent "hg" "inst" [("A", ⟨1, 2, 3⟩)] ⟨∅, ∅, ∅⟩ (by decide)

theorem mem_keys_reconcile_memfam (hostgroup inst : String) (cur : UserProcs)
    (r : Registry) (hnd : (cur.map Prod.fst).Nodup) (l : Label) :
    l ∈ (reconcile hostgroup inst cur r).userMemoryGauge.keys ↔
      (l = mkLabel hostgroup inst (usernameOf l) ∧
        (usernameOf l ∈ cur.map Prod.fst ∨
          (usernameOf l ∉ prevUsernamesOf r ∧ l ∈ r.userMemoryGauge.keys))) ∨
      (¬l = mkLabel hostgroup inst (usernameOf l) ∧ l ∈ r.userMemoryGauge.keys) := by
  have h := (lookup_reconcile hostgroup inst cur r hnd l).2.1
  rw [mem_keys_iff_lookup, h]
  by_cases hpre : l = mkLabel hostgroup inst (usernameOf l)
  · rw [if_pos hpre]
    cases hc : lookupUP cur (usernameOf l) with
    | some e =>
      have hk : usernameOf l ∈ cur.map Prod.fst :=
        List.mem_map_of_mem Prod.fst (lookupUP_some_mem _ _ _ hc)
      constructor
      · intro _
        exact Or.inl ⟨hpre, Or.inl hk⟩
      · intro _
        simp
    | none =>
      have hk := (lookupUP_eq_none_iff _ _).mp hc
      by_cases hprev : usernameOf l ∈ prevUsernamesOf r
      · constructor
        · intro hcon
          exact absurd (by simp [hprev]) hcon
        · rintro (⟨_, hA | ⟨hB, _⟩⟩ | ⟨hnp, _⟩)
          · exact absurd hA hk
          · exact absurd hprev hB
          · exact absurd hpre hnp
      · constructor
        · intro hcon
          refine Or.inl ⟨hpre, Or.inr ⟨hprev, ?_⟩⟩
          rw [mem_keys_iff_lookup]
          intro hnone
          exact hcon (by simp [hprev, hnone])
        · rintro (⟨_, hA | ⟨_, hC⟩⟩ | ⟨hnp, _⟩)
          · exact absurd hA hk
          · rw [mem_keys_iff_lookup] at hC
            intro hcon2
            apply hC
            simpa [hprev] using hcon2
          · exact absurd hpre hnp
  · rw [if_neg hpre, ← mem_keys_iff_lookup]
    constructor
    · intro hx
      exact Or.inr ⟨hpre, hx⟩
    · rintro (⟨hp, _⟩ | ⟨_, hx⟩)
      · exact absurd hp hpre
      · exact hx

theorem mem_keys_reconcile_swapfam (hostgroup inst : String) (cur : UserProcs)
    (r : Registry) (hnd : (cur.map Prod.fst).Nodup) (l : Label) :
    l ∈ (reconcile hostgroup inst cur r).userSwapGauge.keys ↔
      (l = mkLabel hostgroup inst (usernameOf l) ∧
        (usernameOf l ∈ cur.map Prod.fst ∨
          (usernameOf l ∉ prevUsernamesOf r ∧ l ∈ r.userSwapGauge.keys))) ∨
      (¬l = mkLabel hostgroup inst (usernameOf l) ∧ l ∈ r.userSwapGauge.keys) := by
  have h := (lookup_reconcile hostgroup inst cur r hnd l).2.2
  rw [mem_keys_iff_lookup, h]
  by_cases hpre : l = mkLabel hostgroup inst (usernameOf l)
  · rw [if_pos hpre]
    cases hc : lookupUP cur (usernameOf l) with
    | some e =>
      have hk : usernameOf l ∈ cur.map Prod.fst :=
        List.mem_map_of_mem Prod.fst (lookupUP_some_mem _ _ _ hc)
      constructor
      · intro _
        exact Or.inl ⟨hpre, Or.inl hk⟩
      · intro _
        simp
    | none =>
      have hk := (lookupUP_eq_none_iff _ _).mp hc
      by_cases hprev : usernameOf l ∈ prevUsernamesOf r
      · constructor
        · intro hcon
          exact absurd (by simp [hprev]) hcon
        · rintro (⟨_, hA | ⟨hB, _⟩⟩ | ⟨hnp, _⟩)
          · exact absurd hA hk
          · exact absurd hprev hB
          · exact absurd hpre hnp
      · constructor
        · intro hcon
          refine Or.inl ⟨hpre, Or.inr ⟨hprev, ?_⟩⟩
          rw [mem_keys_iff_lookup]
          intro hnone
          exact hcon (by simp [hprev, hnone])
        · rintro (⟨_, hA | ⟨_, hC⟩⟩ | ⟨hnp, _⟩)
          · exact absurd hA hk
          · rw [mem_keys_iff_lookup] at hC
            intro hcon2
            apply hC
            simpa [hprev] using hcon2
          · exact absurd hpre hnp
  · rw [if_neg hpre, ← mem_keys_iff_lookup]
    constructor
    · intro hx
      exact Or.inr ⟨hpre, hx⟩
    · rintro (⟨hp, _⟩ | ⟨_, hx⟩)
      · exact absurd hp hpre
      · exact hx

/-- C10: after a reconciliation pass the three gauge families have
identical label sets, provided they had identical label sets at the
start of the pass (they all start empty, and this invariant is what
justifies enumerating the stale set from the process-count family
alone while deleting from all three). -/
theorem reconcile_families_label_sets_sync (hostgroup inst : String) (cur : UserProcs)
    (r : Registry) (hnd : (cur.map Prod.fst).Nodup)
    (hm : r.userMemoryGauge.keys = r.userProcessesGauge.keys)
    (hs : r.userSwapGauge.keys = r.userProcessesGauge.keys) :
    (reconcile hostgroup inst cur r).userMemoryGauge.keys
        = (reconcile hostgroup inst cur r).userProcessesGauge.keys ∧
    (reconcile hostgroup inst cur r).userSwapGauge.keys
        = (reconcile hostgroup inst cur r).userProcessesGauge.keys := by
  constructor
  · apply Finset.ext
    intro l
    rw [mem_keys_reconcile_memfam hostgroup inst cur r hnd l,
      mem_keys_reconcile_procs hostgroup inst cur r hnd l]
    constructor
    · rintro (⟨hp, hA | ⟨hB, hC⟩⟩ | ⟨hnp, hD⟩)
      · exact Or.inl ⟨hp, hA⟩
      · exact absurd (Finset.mem_image_of_mem usernameOf (hm ▸ hC)) hB
      · refine Or.inr ⟨hnp, ?_⟩
        rw [← hm]
        exact hD
    · rintro (⟨hp, hA⟩ | ⟨hnp, hD⟩)
      · exact Or.inl ⟨hp, Or.inl hA⟩
      · refine Or.inr ⟨hnp, ?_⟩
        rw [hm]
        exact hD
  · apply Finset.ext
    intro l
    rw [mem_keys_reconcile_swapfam hostgroup inst cur r hnd l,
      mem_keys_reconcile_procs hostgroup inst cur r hnd l]
    constructor
    · rintro (⟨hp, hA | ⟨hB, hC⟩⟩ | ⟨hnp, hD⟩)
      · exact Or.inl ⟨hp, hA⟩
      · exact absurd (Finset.mem_image_of_mem usernameOf (hs ▸ hC)) hB
      · refine Or.inr ⟨hnp, ?_⟩
        rw [← hs]
        exact hD
    · rintro (⟨hp, hA⟩ | ⟨hnp, hD⟩)
      · exact Or.inl ⟨hp, Or.inl hA⟩
      · refine Or.inr ⟨hnp, ?_⟩
        rw [hs]
        exact hD

/-- A concrete registry publishing owners `A`, `B`, `C` in all three
families under the `("hg", "i")` prefix, used by witnesses below. -/
def regABC : Registry :=
  { userProcessesGauge :=
      (((∅ : GaugeFam).insert (mkLabel "hg" "i" "A") 3).insert
        (mkLabel "hg" "i" "B") 1).insert (mkLabel "hg" "i" "C") 2,
    userMemoryGauge :=
      (((∅ : GaugeFam).insert (mkLabel "hg" "i" "A") 100).insert
        (mkLabel "hg" "i" "B") 50).insert (mkLabel "hg" "i" "C") 60,
    userSwapGauge :=
      (((∅ : GaugeFam).insert (mkLabel "hg" "i" "A") 0).insert
        (mkLabel "hg" "i" "B") 10).insert (mkLabel "hg" "i" "C") 0 }

/-- Witness for `reconcile_families_label_sets_sync`: previous owners
`{A, B, C}`, current aggregate `{A}`. -/
theorem reconcile_families_label_sets_sync_witness :
    (reconcile "hg" "i" [("A", ⟨2, 7, 0⟩)] regABC).userMemoryGauge.keys
        = (reconcile "hg" "i" [("A", ⟨2, 7, 0⟩)] regABC).userProcessesGauge.keys ∧
    (reconcile "hg" "i" [("A", ⟨2, 7, 0⟩)] regABC).userSwapGauge.keys
        = (reconcile "hg" "i" [("A", ⟨2, 7, 0⟩)] regABC).userProcessesGauge.keys :=
  reconcile_families_label_sets_sync "hg" "i" [("A", ⟨2, 7, 0⟩)] regABC
    (by decide) (by decide) (by decide)

/-- C1: after one reconciliation pass with aggregate `current`, the
label set of every one of the three gauge families is exactly the
image of the key set of `current` under the fixed label prefix: stale
owners are fully deleted from all three families and every current
owner is published in all three. The hypotheses say the starting
registry is one produced by previous cycles: the three label sets
agree and all carry this process's fixed label prefix. -/
theorem reconcile_keys_eq_current (hostgroup inst : String) (cur : UserProcs)
    (r : Registry) (hnd : (cur.map Prod.fst).Nodup)
    (hm : r.userMemoryGauge.keys = r.userProcessesGauge.keys)
    (hs : r.userSwapGauge.keys = r.userProcessesGauge.keys)
    (hpref : ∀ l ∈ r.userProcessesGauge.keys, l = mkLabel hostgroup inst (usernameOf l)) :
    (reconcile hostgroup inst cur r).userProcessesGauge.keys
        = ((cur.map Prod.fst).toFinset).image (mkLabel hostgroup inst) ∧
    (reconcile hostgroup inst cur r).userMemoryGauge.keys
        = ((cur.map Prod.fst).toFinset).image (mkLabel hostgroup inst) ∧
    (reconcile hostgroup inst cur r).userSwapGauge.keys
        = ((cur.map Prod.fst).toFinset).image (mkLabel hostgroup inst) := by
  have himage : ∀ l : Label,
      l ∈ ((cur.map Prod.fst).toFinset).image (mkLabel hostgroup inst) ↔
        (l = mkLabel hostgroup inst (usernameOf l) ∧ usernameOf l ∈ cur.map Prod.fst) := by
    intro l
    rw [Finset.mem_image]
    constructor
    · rintro ⟨u, hu, hmk⟩
      have hul : usernameOf l = u := by
        rw [← hmk, usernameOf_mkLabel]
      rw [hul]
      exact ⟨hmk.symm, List.mem_toFinset.mp hu⟩
    · rintro ⟨hp, hk⟩
      exact ⟨usernameOf l, List.mem_toFinset.mpr hk, hp.symm⟩
  refine ⟨?_, ?_, ?_⟩
  · apply Finset.ext
    intro l
    rw [mem_keys_reconcile_procs hostgroup inst cur r hnd l, himage l]
    constructor
    · rintro (⟨hp, hA⟩ | ⟨hnp, hD⟩)
      · exact ⟨hp, hA⟩
      · exact absurd (hpref l hD) hnp
    · rintro ⟨hp, hA⟩
      exact Or.inl ⟨hp, hA⟩
  · apply Finset.ext
    intro l
    rw [mem_keys_reconcile_memfam hostgroup inst cur r hnd l, himage l]
    constructor
    · rintro (⟨hp, hA | ⟨hB, hC⟩⟩ | ⟨hnp, hD⟩)
      · exact ⟨hp, hA⟩
      · exact absurd (Finset.mem_image_of_mem usernameOf (hm ▸ hC)) hB
      · exact absurd (hpref l (hm ▸ hD)) hnp
    · rintro ⟨hp, hA⟩
      exact Or.inl ⟨hp, Or.inl hA⟩
  · apply Finset.ext
    intro l
    rw [mem_keys_reconcile_swapfam hostgroup inst cur r hnd l, himage l]
    constructor
    · rintro (⟨hp, hA | ⟨hB, hC⟩⟩ | ⟨hnp, hD⟩)
      · exact ⟨hp, hA⟩
      · exact absurd (Finset.mem_image_of_mem usernameOf (hs ▸ hC)) hB
      · exact absurd (hpref l (hs ▸ hD)) hnp
    · rintro ⟨hp, hA⟩
      exact Or.inl ⟨hp, Or.inl hA⟩

/-- Witness for `reconcile_keys_eq_current`: previous owners
`{A, B, C}`, current aggregate `{A, D}`; the published label set of
each family becomes exactly `{A, D}`. -/
theorem reconcile_keys_eq_current_witness :
    (reconcile "hg" "i" [("A", ⟨2, 7, 0⟩), ("D", ⟨1, 5, 4⟩)] regABC).userProcessesGauge.keys
        = (([("A", (⟨2, 7, 0⟩ : ProcEntry)), ("D", ⟨1, 5, 4⟩)].map Prod.fst).toFinset).image
            (mkLabel "hg" "i") ∧
    (reconcile "hg" "i" [("A", ⟨2, 7, 0⟩), ("D", ⟨1, 5, 4⟩)] regABC).userMemoryGauge.keys
        = (([("A", (⟨2, 7, 0⟩ : ProcEntry)), ("D", ⟨1, 5, 4⟩)].map Prod.fst).toFinset).image
            (mkLabel "hg" "i") ∧
    (reconcile "hg" "i" [("A", ⟨2, 7, 0⟩), ("D", ⟨1, 5, 4⟩)] regABC).userSwapGauge.keys
        = (([("A", (⟨2, 7, 0⟩ : ProcEntry)), ("D", ⟨1, 5, 4⟩)].map Prod.fst).toFinset).image
            (mkLabel "hg" "i") :=
  reconcile_keys_eq_current "hg" "i" [("A", ⟨2, 7, 0⟩), ("D", ⟨1, 5, 4⟩)] regABC
    (by decide) (by decide) (by decide) (by decide)

/-- C3: for every snapshot (including the empty one), the sum of
`count` over all owner entries of the aggregate equals the number of
records in the snapshot: each record contributes exactly one to
exactly one owner's count. -/
theorem aggregate_count_sum_eq_length (resolve : Nat → Option String) (ps : List Status) :
    sumCount (aggregateProcs resolve ps) = (ps.length : Int) := by
  have h := sumCount_foldl_aggStep resolve ps []
  simpa [aggregateProcs, sumCount] using h

/-- C4: a record with an absent resident-memory or swap field
contributes exactly zero to that field, and the record is still
counted: appending it to any snapshot raises its owner's count by one
and adds only its (possibly zero) contributions. -/
theorem aggregate_absent_fields_zero_fill (resolve : Nat → Option String)
    (ps : List Status) (p : Status) :
    (p.vmrss = none → rssContribution p = 0) ∧
    (p.vmswap = none → swapContribution p = 0) ∧
    lookupUP (aggregateProcs resolve (ps ++ [p])) (resolveUsername resolve p.euid) =
      some { count := ((lookupUP (aggregateProcs resolve ps)
                (resolveUsername resolve p.euid)).getD ⟨0, 0, 0⟩).count + 1,
             rss := ((lookupUP (aggregateProcs resolve ps)
                (resolveUsername resolve p.euid)).getD ⟨0, 0, 0⟩).rss + rssContribution p,
             swap := ((lookupUP (aggregateProcs resolve ps)
                (resolveUsername resolve p.euid)).getD ⟨0, 0, 0⟩).swap + swapContribution p } := by
  refine ⟨?_, ?_, ?_⟩
  · intro h
    simp [rssContribution, h]
  · intro h
    simp [swapContribution, h]
  · rw [aggregateProcs, List.foldl_append, List.foldl_cons, List.foldl_nil, aggStep]
    exact lookupUP_addProc_self (resolveUsername resolve p.euid)
      (rssContribution p) (swapContribution p) _

/-- Witness for `aggregate_absent_fields_zero_fill`: one record with
both fields absent is counted once and contributes zero memory and
zero swap. -/
theorem aggregate_absent_fields_zero_fill_witness :
    lookupUP (aggregateProcs (fun _ => some "alice") ([] ++ [⟨7, none, none⟩]))
        (resolveUsername (fun _ => some "alice") 7) = some ⟨1, 0, 0⟩ := by
  have h := aggregate_absent_fields_zero_fill (fun _ => some "alice") [] ⟨7, none, none⟩
  rw [h.2.2]
  decide

/-- C5: every record whose owner id the resolver fails on is
aggregated under the fixed sentinel `"unknown"`, and since the
aggregate's keys are distinct, all such records in one cycle fall into
exactly one `"unknown"` entry whose count and memory/swap are the sums
over those records. -/
theorem aggregate_unknown_bucket (resolve : Nat → Option String) (ps : List Status) :
    (∀ euid, resolve euid = none → resolveUsername resolve euid = "unknown") ∧
    ((aggregateProcs resolve ps).map Prod.fst).Nodup ∧
    lookupUP (aggregateProcs resolve ps) "unknown" =
      (if (ps.filter fun p => resolveUsername resolve p.euid = "unknown") = [] then none
       else some (snapshotEntry ⟨0, 0, 0⟩
         (ps.filter fun p => resolveUsername resolve p.euid = "unknown"))) := by
  refine ⟨?_, nodup_keys_aggregateProcs resolve ps, lookupUP_aggregateProcs resolve ps "unknown"⟩
  intro euid h
  simp [resolveUsername, h]

/-- Witness for `aggregate_unknown_bucket`: two unresolvable records
accumulate into the single `"unknown"` entry with count 2 and summed
memory. -/
theorem aggregate_unknown_bucket_witness :
    lookupUP (aggregateProcs (fun _ => none) [⟨1, some 2, none⟩, ⟨3, some 4, none⟩])
      "unknown" = some ⟨2, 6000, 0⟩ := by
  have h := aggregate_unknown_bucket (fun _ => none) [⟨1, some 2, none⟩, ⟨3, some 4, none⟩]
  rw [h.2.2]
  decide

/-- C6: when the process-snapshot source fails at the start of a
cycle, `procs` returns early and the cycle performs no registry
mutation at all: the registry after the failed cycle is exactly the
registry before it. -/
theorem procsCycle_snapshot_failure_noop (resolve : Nat → Option String)
    (hostgroup inst : String) (r : Registry) :
    procsCycle resolve hostgroup inst none r = r := rfl

/-- C8: a present memory (or swap) value `v` in kB contributes exactly
`v * 1000` (the decimal multiplier, not the binary 1024), and the
published gauge value for any owner present in the aggregate is the
exact integer sum of the scaled contributions of that owner's
records. -/
theorem memory_scale_1000 (resolve : Nat → Option String) (ps : List Status)
    (hostgroup inst : String) (r : Registry) (u : String)
    (hu : u ∈ (aggregateProcs resolve ps).map Prod.fst) :
    (∀ p : Status, ∀ x : Nat, p.vmrss = some x → rssContribution p = (x : Int) * 1000) ∧
    (∀ p : Status, ∀ x : Nat, p.vmswap = some x → swapContribution p = (x : Int) * 1000) ∧
    (reconcile hostgroup inst (aggregateProcs resolve ps) r).userMemoryGauge.lookup
        (mkLabel hostgroup inst u)
      = some (((ps.filter fun p => resolveUsername resolve p.euid = u).map
          rssContribution).sum) ∧
    (reconcile hostgroup inst (aggregateProcs resolve ps) r).userSwapGauge.lookup
        (mkLabel hostgroup inst u)
      = some (((ps.filter fun p => resolveUsername resolve p.euid = u).map
          swapContribution).sum) := by
  have hl := lookupUP_aggregateProcs resolve ps u
  have hne : ¬(ps.filter fun p => resolveUsername resolve p.euid = u) = [] := by
    intro he
    rw [he, if_pos rfl] at hl
    exact (lookupUP_eq_none_iff _ _).mp hl hu
  refine ⟨?_, ?_, ?_, ?_⟩
  · intro p x h
    simp [rssContribution, h]
  · intro p x h
    simp [swapContribution, h]
  · have hchar := (lookup_reconcile hostgroup inst (aggregateProcs resolve ps) r
      (nodup_keys_aggregateProcs resolve ps) (mkLabel hostgroup inst u)).2.1
    rw [hchar, usernameOf_mkLabel, if_pos rfl, lookupUP_aggregateProcs resolve ps u,
      if_neg hne]
    simp [snapshotEntry]
  · have hchar := (lookup_reconcile hostgroup inst (aggregateProcs resolve ps) r
      (nodup_keys_aggregateProcs resolve ps) (mkLabel hostgroup inst u)).2.2
    rw [hchar, usernameOf_mkLabel, if_pos rfl, lookupUP_aggregateProcs resolve ps u,
      if_neg hne]
    simp [snapshotEntry]

/-- Witness for `memory_scale_1000`: one record with 3 kB resident and
1 kB swap publishes 3000 and 1000. -/
theorem memory_scale_1000_witness :
    (reconcile "hg" "i" (aggregateProcs (fun _ => some "alice") [⟨5, some 3, some 1⟩])
        (⟨∅, ∅, ∅⟩ : Registry)).userMemoryGauge.lookup (mkLabel "hg" "i" "alice")
      = some 3000 ∧
    (reconcile "hg" "i" (aggregateProcs (fun _ => some "alice") [⟨5, some 3, some 1⟩])
        (⟨∅, ∅, ∅⟩ : Registry)).userSwapGauge.lookup (mkLabel "hg" "i" "alice")
      = some 1000 := by
  have h := memory_scale_1000 (fun _ => some "alice") [⟨5, some 3, some 1⟩]
    "hg" "i" (⟨∅, ∅, ∅⟩ : Registry) "alice" (by decide)
  refine ⟨?_, ?_⟩
  · rw [h.2.2.1]
    decide
  · rw [h.2.2.2]
    decide

/-- Rust `std::time::Duration` subtraction as used by `run_forever`
(`src/main.rs` line 180): durations are non-negative, `a - b` is the
difference when `b` is at most `a`, and otherwise the subtraction
panics ("overflow when subtracting durations"), modelled as `none`.
Time is measured in whole seconds. -/
def durationSub (a b : Nat) : Option Nat :=
  if b ≤ a then some (a - b) else none

/-- One iteration of the `run_forever` loop (`src/main.rs` lines
175-182): record the start instant, run `procs`, then sleep for
`Duration::from_secs(15) - start.elapsed()`. The result pairs the
registry after the cycle with the computed sleep duration; a `none`
sleep is the panicking `Duration` subtraction, which crashes the
loop. -/
def runForeverStep (resolve : Nat → Option String) (hostgroup inst : String)
    (snapshot : Option (List Status)) (r : Registry) (elapsed : Nat) :
    Registry × Option Nat :=
  (procsCycle resolve hostgroup inst snapshot r, durationSub 15 elapsed)

/-- C2 (code bug): the end-of-cycle sleep is computed as
`15s − elapsed` with the panicking `Duration` subtraction rather than
`max(0, 15s − elapsed)`: a cycle that takes at most 15 seconds sleeps
for exactly the remainder, but a cycle that takes 16 seconds makes the
sleep computation fail (panic) instead of starting the next cycle
immediately. -/
theorem cycleSleep_overrun_fails :
    (∀ resolve hostgroup inst snapshot r,
      (runForeverStep resolve hostgroup inst snapshot r 10).2 = some 5) ∧
    (∀ resolve hostgroup inst snapshot r,
      (runForeverStep resolve hostgroup inst snapshot r 16).2 = none) :=
  ⟨fun _ _ _ _ _ => rfl, fun _ _ _ _ _ => rfl⟩

/-- Port resolution of `main` (`src/main.rs` lines 190-200): an
explicit `--port` flag wins; otherwise the `PORT` environment
variable, whose value is parsed as a `u16` with parse failure mapping
to 0 (the parse is the Rust standard library's, embedded here as its
`Option Nat` outcome); otherwise 0. -/
def resolvePort (flagPort : Option Nat) (envPort : Option (Option Nat)) : Nat :=
  match flagPort with
  | some x => x
  | none =>
    match envPort with
    | some parsed =>
      match parsed with
      | some x => x
      | none => 0
    | none => 0

/-- Group label resolution of `main` (`src/main.rs` lines 202-209):
flag, then the `GROUP` environment variable, then `"test"`. -/
def resolveGroup (flagGroup : Option String) (envGroup : Option String) : String :=
  match flagGroup with
  | some x => x
  | none =>
    match envGroup with
    | some x => x
    | none => "test"

/-- Instance label resolution of `main` (`src/main.rs` lines 211-217):
flag, then the `INSTANCE` environment variable, then `"test"`. -/
def resolveInstance (flagInstance : Option String) (envInstance : Option String) : String :=
  match flagInstance with
  | some x => x
  | none =>
    match envInstance with
    | some x => x
    | none => "test"

/-- Oneshot resolution: the clap flag `--oneshot` with
`default_value_t = false` (`src/main.rs` lines 44-45); `main` consults
no environment variable for this setting. -/
def resolveOneshot (flagOneshot : Option Bool) : Bool :=
  match flagOneshot with
  | some b => b
  | none => false

/-- Modelled from the spec: oneshot resolution as the claim states it,
with an environment variable taking precedence over the built-in
default. The code has no such environment lookup; this definition
exists only to compare the claim with `resolveOneshot`. -/
def specResolveOneshot (flagOneshot : Option Bool) (envOneshot : Option Bool) : Bool :=
  match flagOneshot with
  | some b => b
  | none =>
    match envOneshot with
    | some b => b
    | none => false

/-- C9 counterexample: with no flag and an environment variable
requesting oneshot mode, the claimed flag/env/default precedence
yields `true`, but the code ignores any such environment variable and
resolves to the default `false`. -/
theorem config_oneshot_env_ignored :
    resolveOneshot none = false ∧ specResolveOneshot none (some true) = true ∧
    resolveOneshot none ≠ specResolveOneshot none (some true) :=
  ⟨rfl, rfl, by decide⟩

/-- C9 amended: `port`, `group` and `instance` are each resolved
independently with precedence explicit flag, then environment
variable, then built-in default (0, "test", "test"; an unparsable
`PORT` value falls back to 0), while `oneshot` is resolved from its
flag alone with default `false` (no environment variable), and the
`job` label is the fixed constant `"proc-mem-to-prom"`, not
configurable at startup. -/
theorem config_precedence_amended :
    (∀ x : Nat, ∀ e, resolvePort (some x) e = x) ∧
    (∀ x : Nat, resolvePort none (some (some x)) = x) ∧
    resolvePort none (some none) = 0 ∧
    resolvePort none none = 0 ∧
    (∀ s : String, ∀ e, resolveGroup (some s) e = s) ∧
    (∀ s : String, resolveGroup none (some s) = s) ∧
    resolveGroup none none = "test" ∧
    (∀ s : String, ∀ e, resolveInstance (some s) e = s) ∧
    (∀ s : String, resolveInstance none (some s) = s) ∧
    resolveInstance none none = "test" ∧
    (∀ b : Bool, resolveOneshot (some b) = b) ∧
    resolveOneshot none = false ∧
    jobLabel = "proc-mem-to-prom" :=
  ⟨fun _ _ => rfl, fun _ => rfl, rfl, rfl, fun _ _ => rfl, fun _ => rfl, rfl,
    fun _ _ => rfl, fun _ => rfl, rfl, fun _ => rfl, rfl, rfl⟩
